import Mathlib

/-
  Verification of the HLR sidecar service (services/hlr-sidecar/main.py).

  The numeric domain of the Python code (IEEE floats) is embedded as the
  real numbers; weight and count dictionaries (Python defaultdicts, which
  preserve insertion order and insert the default value on a read of a
  missing key) are embedded as association lists together with explicit
  read/write operations.  Fallible arithmetic (Python float division,
  which raises ZeroDivisionError on a zero denominator) is embedded with
  an Option result.
-/

set_option maxHeartbeats 1000000

noncomputable section

namespace HLRSidecar

/-- MIN_HALF_LIFE from main.py: fifteen minutes expressed in days. -/
def MIN_HALF_LIFE : ℝ := 15.0 / (24 * 60)

/-- MAX_HALF_LIFE from main.py: about nine months, in days. -/
def MAX_HALF_LIFE : ℝ := 274.0

/-- LN2 from main.py: the natural logarithm of two. -/
def LN2 : ℝ := Real.log 2.0

/-- pclip from main.py: bound model predictions into the band 0.0001 to 0.9999. -/
def pclip (p : ℝ) : ℝ := min (max p 0.0001) 0.9999

/-- hclip from main.py: bound the half-life into the band MIN to MAX. -/
def hclip (h : ℝ) : ℝ := min (max h MIN_HALF_LIFE) MAX_HALF_LIFE

/-- Lookup in an insertion-ordered dictionary, embedded as an association list. -/
def dlookup {α : Type} : List (String × α) → String → Option α
  | [], _ => none
  | (k', v) :: rest, k => if k' = k then some v else dlookup rest k

/-- Write to an insertion-ordered dictionary: overwrite in place, or append. -/
def dset {α : Type} : List (String × α) → String → α → List (String × α)
  | [], k, v => [(k, v)]
  | (k', v') :: rest, k, v =>
      if k' = k then (k, v) :: rest else (k', v') :: dset rest k v

/-- Read from a Python defaultdict with default d: a read of a missing key
inserts the default at the end of the dictionary and returns it. -/
def dread {α : Type} (d : α) (m : List (String × α)) (k : String) :
    α × List (String × α) :=
  match dlookup m k with
  | some v => (v, m)
  | none => (d, m ++ [(k, d)])

/-- HLRModel state from main.py: the weight and count dictionaries and the
hyper-parameters fixed at construction. -/
structure HLRModel where
  weights : List (String × ℝ)
  fcounts : List (String × ℕ)
  omit_h_term : Bool
  lrate : ℝ
  hlwt : ℝ
  l2wt : ℝ
  sigma : ℝ

/-- The model built by get_model from the default settings. -/
def initModel : HLRModel :=
  { weights := [], fcounts := [], omit_h_term := false,
    lrate := 0.001, hlwt := 0.01, l2wt := 0.1, sigma := 1.0 }

/-- Observed weight of a feature: the dictionary value, or the defaultdict
default 0.0 when the name is absent. -/
def wview (m : HLRModel) : String → ℝ :=
  fun k => (dlookup m.weights k).getD 0

/-- Observed update count of a feature: the dictionary value, or 0. -/
def cview (m : HLRModel) : String → ℕ :=
  fun k => (dlookup m.fcounts k).getD 0

/-- The generator sum inside halflife: left-to-right defaultdict reads of
each feature weight, accumulating the dot product and threading the
possibly grown weight dictionary. -/
def dotProd : List (String × ℝ) → List (String × ℝ) → ℝ × List (String × ℝ)
  | w, [] => (0, w)
  | w, kx :: rest =>
      let r := dread 0 w kx.1
      let s := dotProd r.2 rest
      (r.1 * kx.2 + s.1, s.2)

/-- HLRModel.halflife from main.py: clip base to the power of the dot
product of weights and features.  Exact real arithmetic never overflows,
so the OverflowError fallback of the source has no counterpart here. -/
def halflife (m : HLRModel) (features : List (String × ℝ)) (base : ℝ) :
    ℝ × HLRModel :=
  let r := dotProd m.weights features
  (hclip (base ^ r.1), { m with weights := r.2 })

/-- HLRModel.predict from main.py.  Note the source computes the recall
probability with the literal base 2.0 even when another base argument was
passed to halflife. -/
def predict (m : HLRModel) (features : List (String × ℝ))
    (delta_days base : ℝ) : (ℝ × ℝ) × HLRModel :=
  let hr := halflife m features base
  ((pclip ((2.0 : ℝ) ^ (-delta_days / hr.1)), hr.1), hr.2)

/-- HLRModel.get_weights from main.py: a copy of the weight dictionary. -/
def get_weights (m : HLRModel) : List (String × ℝ) := m.weights

/-- HLRModel.load_weights from main.py: replace the weight dictionary by a
fresh defaultdict updated with the given entries in order; counts stay. -/
def load_weights (m : HLRModel) (w : List (String × ℝ)) : HLRModel :=
  { m with weights := w.foldl (fun acc kv => dset acc kv.1 kv.2) [] }

/-- The actual half-life resolution at the top of train_update: keep an
explicit value; otherwise estimate it from the recall when the guard
holds, or fall back to the predicted half-life.  Python float division
raises ZeroDivisionError when the denominator log2 of the recall is zero
(that is, at a recall of exactly one), embedded here as none. -/
def resolve_half_life (delta_days actual_recall h : ℝ) :
    Option ℝ → Option ℝ
  | some ah => some ah
  | none =>
      if actual_recall > 0.0001 ∧ delta_days > 0 then
        if Real.logb 2 actual_recall = 0 then none
        else some (hclip (-delta_days / Real.logb 2 actual_recall))
      else some h

/-- The body of the per-feature loop of HLRModel.train_update: read the
count (a defaultdict read), form the learning rate, apply the recall
gradient step, the half-life gradient step unless omitted, then the L2
shrinkage on the value left by the first two, and finally increment the
count. -/
def updateFeature (actual_recall dlp_dw dlh_dw : ℝ)
    (st : HLRModel) (kx : String × ℝ) : HLRModel :=
  let k := kx.1
  let x := kx.2
  let rc := dread 0 st.fcounts k
  let rate := 1.0 / (1.0 + actual_recall) * st.lrate
    / Real.sqrt (1 + (rc.1 : ℝ))
  let rw := dread 0 st.weights k
  let ws2 := dset rw.2 k (rw.1 - rate * dlp_dw * x)
  let ws3 :=
    if st.omit_h_term then ws2
    else
      let rw2 := dread 0 ws2 k
      dset rw2.2 k (rw2.1 - rate * st.hlwt * dlh_dw * x)
  let rw3 := dread 0 ws3 k
  let ws4 := dset rw3.2 k (rw3.1 - rate * st.l2wt * rw3.1 / st.sigma ^ 2)
  let rc2 := dread 0 rc.2 k
  let fc3 := dset rc2.2 k (rc2.1 + 1)
  { st with weights := ws4, fcounts := fc3 }

/-- HLRModel.train_update from main.py: predict with base two, resolve the
actual half-life, form the two loss derivatives, then fold the per-feature
update over the feature list.  The result is none exactly when the
half-life estimation divides by zero. -/
def train_update (m : HLRModel) (features : List (String × ℝ))
    (delta_days actual_recall : ℝ) (actual_half_life : Option ℝ) :
    Option HLRModel :=
  let pr := predict m features delta_days 2.0
  let p := pr.1.1
  let h := pr.1.2
  match resolve_half_life delta_days actual_recall h actual_half_life with
  | none => none
  | some ah =>
      let dlp_dw := 2.0 * (p - actual_recall) * LN2 ^ 2 * p * (delta_days / h)
      let dlh_dw := 2.0 * (h - ah) * LN2 * h
      some (features.foldl (updateFeature actual_recall dlp_dw dlh_dw) pr.2)

/-- Lookup after a write: the written key reads back the written value,
every other key is untouched. -/
theorem dlookup_dset {α : Type} (m : List (String × α)) (k : String) (v : α)
    (k' : String) :
    dlookup (dset m k v) k' = if k' = k then some v else dlookup m k' := by
  induction m with
  | nil =>
      by_cases h : k' = k
      · subst h; simp [dset, dlookup]
      · simp [dset, dlookup, h, Ne.symm h]
  | cons kv rest ih =>
      obtain ⟨k0, v0⟩ := kv
      simp only [dset]
      by_cases h0 : k0 = k
      · subst h0
        by_cases h : k' = k0
        · subst h; simp [dlookup]
        · simp [dlookup, h, Ne.symm h]
      · simp only [if_neg h0, dlookup, ih]
        by_cases h1 : k0 = k'
        · subst h1
          simp [h0]
        · by_cases h2 : k' = k <;> simp [h0, h1, h2]

/-- Value of a defaultdict read: the stored value or the default. -/
theorem dread_fst {α : Type} (d : α) (m : List (String × α)) (k : String) :
    (dread d m k).1 = (dlookup m k).getD d := by
  unfold dread
  cases h : dlookup m k <;> simp [h]

/-- Lookup of a missing key appended at the end. -/
theorem dlookup_append_single {α : Type} (m : List (String × α))
    (k : String) (d : α) (k' : String) (hm : dlookup m k = none) :
    dlookup (m ++ [(k, d)]) k' =
      if k' = k then some d else dlookup m k' := by
  induction m with
  | nil =>
      by_cases h : k' = k
      · subst h; simp [dlookup]
      · simp [dlookup, h, Ne.symm h]
  | cons kv rest ih =>
      obtain ⟨k0, v0⟩ := kv
      have hk0 : ¬ k0 = k := by
        intro h'
        subst h'
        simp [dlookup] at hm
      have hm' : dlookup rest k = none := by
        simpa [dlookup, hk0] using hm
      by_cases h : k0 = k'
      · subst h
        have hk' : ¬ k0 = k := hk0
        simp [dlookup, hk', Ne.symm hk']
      · simp [dlookup, h, ih hm']

/-- Dictionary after a defaultdict read: the key reads back its observed
value, every other key is untouched. -/
theorem dlookup_dread_snd {α : Type} (d : α) (m : List (String × α))
    (k k' : String) :
    dlookup (dread d m k).2 k' =
      if k' = k then some ((dlookup m k).getD d) else dlookup m k' := by
  unfold dread
  cases h : dlookup m k with
  | some v =>
      by_cases hk : k' = k <;> simp [h, hk]
  | none =>
      rw [dlookup_append_single m k d k' h]
      by_cases hk : k' = k <;> simp [h, hk]

/-- A defaultdict read never changes the observed value of any key. -/
theorem dread_getD {α : Type} (d : α) (m : List (String × α)) (k k' : String) :
    (dlookup (dread d m k).2 k').getD d = (dlookup m k').getD d := by
  rw [dlookup_dread_snd]
  by_cases hk : k' = k <;> simp [hk]

/-- Value of the halflife dot product: the sum over the feature list of
the observed weight times the feature value. -/
theorem dotProd_fst (w : List (String × ℝ)) (f : List (String × ℝ)) :
    (dotProd w f).1 =
      (f.map (fun kx => (dlookup w kx.1).getD 0 * kx.2)).sum := by
  induction f generalizing w with
  | nil => simp [dotProd]
  | cons kx rest ih =>
      have hmap :
          rest.map (fun p => (dlookup (dread 0 w kx.1).2 p.1).getD 0 * p.2)
            = rest.map (fun p => (dlookup w p.1).getD 0 * p.2) := by
        apply List.map_congr_left
        intro p _
        rw [dread_getD]
      simp [dotProd, ih, dread_fst, hmap]

/-- The dot product never changes the observed value of any key. -/
theorem dotProd_getD (w : List (String × ℝ)) (f : List (String × ℝ))
    (k : String) :
    (dlookup (dotProd w f).2 k).getD 0 = (dlookup w k).getD 0 := by
  induction f generalizing w with
  | nil => simp [dotProd]
  | cons kx rest ih => simp [dotProd, ih, dread_getD]

/-- The dot product only appends zero-valued entries for unseen names. -/
theorem dotProd_weights_append (w : List (String × ℝ))
    (f : List (String × ℝ)) :
    ∃ ext, (dotProd w f).2 = w ++ ext ∧ ∀ kv ∈ ext, kv.2 = (0 : ℝ) := by
  induction f generalizing w with
  | nil => exact ⟨[], by simp [dotProd], by simp⟩
  | cons kx rest ih =>
      unfold dotProd
      unfold dread
      cases h : dlookup w kx.1 with
      | some v =>
          obtain ⟨ext, he, hz⟩ := ih w
          exact ⟨ext, by simpa [h] using he, hz⟩
      | none =>
          obtain ⟨ext, he, hz⟩ := ih (w ++ [(kx.1, 0)])
          refine ⟨(kx.1, 0) :: ext, ?_, ?_⟩
          · simpa [h] using he
          · intro kv hkv
            rcases List.mem_cons.mp hkv with h1 | h2
            · simp [h1]
            · exact hz kv h2

/-- Per-feature learning rate as the spec words it: one over one plus the
actual recall, times the learning rate, over the square root of one plus
the update count of the feature. -/
def specRate (actual_recall lrate : ℝ) (c : ℕ) : ℝ :=
  1.0 / (1.0 + actual_recall) * lrate / Real.sqrt (1 + (c : ℝ))

/-- One per-feature step of trainUpdate as the spec words it, over plain
functional weight and count maps: subtract the recall gradient term, then
the half-life gradient term unless omitted, then the L2 shrinkage computed
from the weight left by the first two steps, and increment the count. -/
def specStep (om : Bool) (lrate hlwt l2wt sigma actual_recall dlp dlh : ℝ)
    (wc : (String → ℝ) × (String → ℕ)) (kx : String × ℝ) :
    (String → ℝ) × (String → ℕ) :=
  let k := kx.1
  let x := kx.2
  let rate := specRate actual_recall lrate (wc.2 k)
  let w1 := Function.update wc.1 k (wc.1 k - rate * dlp * x)
  let w2 :=
    if om then w1 else Function.update w1 k (w1 k - rate * hlwt * dlh * x)
  let w3 := Function.update w2 k (w2 k - rate * l2wt * w2 k / sigma ^ 2)
  (w3, Function.update wc.2 k (wc.2 k + 1))

/-- Pure L2 shrinkage step, as the spec words the degenerate elapsed-zero
update: multiply the weight by one minus rate times the L2 weight over
sigma squared, and increment the count. -/
def shrinkStep (lrate l2wt sigma actual_recall : ℝ)
    (wc : (String → ℝ) × (String → ℕ)) (kx : String × ℝ) :
    (String → ℝ) × (String → ℕ) :=
  let k := kx.1
  let rate := specRate actual_recall lrate (wc.2 k)
  (Function.update wc.1 k (wc.1 k * (1 - rate * l2wt / sigma ^ 2)),
   Function.update wc.2 k (wc.2 k + 1))

/-- The per-feature update never changes the hyper-parameter fields. -/
theorem updateFeature_params (r dlp dlh : ℝ) (st : HLRModel)
    (kx : String × ℝ) :
    (updateFeature r dlp dlh st kx).omit_h_term = st.omit_h_term ∧
    (updateFeature r dlp dlh st kx).lrate = st.lrate ∧
    (updateFeature r dlp dlh st kx).hlwt = st.hlwt ∧
    (updateFeature r dlp dlh st kx).l2wt = st.l2wt ∧
    (updateFeature r dlp dlh st kx).sigma = st.sigma := by
  refine ⟨rfl, rfl, rfl, rfl, rfl⟩

/-- Count view of the per-feature update: exactly the spec-step count. -/
theorem cview_updateFeature (r dlp dlh : ℝ) (st : HLRModel)
    (kx : String × ℝ) (k' : String) :
    cview (updateFeature r dlp dlh st kx) k' =
      (specStep st.omit_h_term st.lrate st.hlwt st.l2wt st.sigma r dlp dlh
        (wview st, cview st) kx).2 k' := by
  obtain ⟨k, x⟩ := kx
  by_cases hk : k' = k
  · subst hk
    simp [updateFeature, specStep, cview, dlookup_dset, dlookup_dread_snd,
      dread_fst]
  · simp [updateFeature, specStep, cview, dlookup_dset, dlookup_dread_snd,
      hk, Function.update_noteq hk]

/-- Weight view of the per-feature update: exactly the spec-step weight. -/
theorem wview_updateFeature (r dlp dlh : ℝ) (st : HLRModel)
    (kx : String × ℝ) (k' : String) :
    wview (updateFeature r dlp dlh st kx) k' =
      (specStep st.omit_h_term st.lrate st.hlwt st.l2wt st.sigma r dlp dlh
        (wview st, cview st) kx).1 k' := by
  obtain ⟨k, x⟩ := kx
  cases hom : st.omit_h_term
  · by_cases hk : k' = k
    · subst hk
      simp [updateFeature, specStep, specRate, wview, cview, hom,
        dlookup_dset, dlookup_dread_snd, dread_fst]
    · simp [updateFeature, specStep, wview, hom, dlookup_dset,
        dlookup_dread_snd, hk, Function.update_noteq hk]
  · by_cases hk : k' = k
    · subst hk
      simp [updateFeature, specStep, specRate, wview, cview, hom,
        dlookup_dset, dlookup_dread_snd, dread_fst]
    · simp [updateFeature, specStep, wview, hom, dlookup_dset,
        dlookup_dread_snd, hk, Function.update_noteq hk]

/-- View of the per-feature update as a pair of maps. -/
theorem views_updateFeature (r dlp dlh : ℝ) (st : HLRModel)
    (kx : String × ℝ) :
    (wview (updateFeature r dlp dlh st kx),
     cview (updateFeature r dlp dlh st kx)) =
      specStep st.omit_h_term st.lrate st.hlwt st.l2wt st.sigma r dlp dlh
        (wview st, cview st) kx := by
  have hw : wview (updateFeature r dlp dlh st kx) =
      (specStep st.omit_h_term st.lrate st.hlwt st.l2wt st.sigma r dlp dlh
        (wview st, cview st) kx).1 :=
    funext fun k' => wview_updateFeature r dlp dlh st kx k'
  have hc : cview (updateFeature r dlp dlh st kx) =
      (specStep st.omit_h_term st.lrate st.hlwt st.l2wt st.sigma r dlp dlh
        (wview st, cview st) kx).2 :=
    funext fun k' => cview_updateFeature r dlp dlh st kx k'
  exact Prod.ext hw hc

/-- The whole per-feature fold of trainUpdate refines the spec-level fold
of spec steps over functional maps. -/
theorem views_foldl (r dlp dlh : ℝ) (f : List (String × ℝ))
    (st : HLRModel) :
    (wview (f.foldl (updateFeature r dlp dlh) st),
     cview (f.foldl (updateFeature r dlp dlh) st)) =
      f.foldl
        (specStep st.omit_h_term st.lrate st.hlwt st.l2wt st.sigma r dlp dlh)
        (wview st, cview st) := by
  induction f generalizing st with
  | nil => rfl
  | cons kx rest ih =>
      obtain ⟨ho, hl, hh, h2, hs⟩ := updateFeature_params r dlp dlh st kx
      calc (wview ((kx :: rest).foldl (updateFeature r dlp dlh) st),
            cview ((kx :: rest).foldl (updateFeature r dlp dlh) st))
          = rest.foldl
              (specStep st.omit_h_term st.lrate st.hlwt st.l2wt st.sigma
                r dlp dlh)
              (wview (updateFeature r dlp dlh st kx),
               cview (updateFeature r dlp dlh st kx)) := by
            have := ih (updateFeature r dlp dlh st kx)
            rw [List.foldl_cons, this, ho, hl, hh, h2, hs]
        _ = (kx :: rest).foldl
              (specStep st.omit_h_term st.lrate st.hlwt st.l2wt st.sigma
                r dlp dlh)
              (wview st, cview st) := by
            rw [List.foldl_cons, views_updateFeature]

/-- Value of predict: the half-life is the clipped power of the observed
dot product with the given base, the recall is the clipped power of two. -/
theorem predict_fst (m : HLRModel) (f : List (String × ℝ))
    (delta_days base : ℝ) :
    (predict m f delta_days base).1 =
      (pclip ((2.0 : ℝ) ^ (-delta_days /
          hclip (base ^ (f.map (fun kx => wview m kx.1 * kx.2)).sum))),
       hclip (base ^ (f.map (fun kx => wview m kx.1 * kx.2)).sum)) := by
  simp [predict, halflife, dotProd_fst, wview]

/-- Predict does not touch the count dictionary. -/
theorem predict_fcounts (m : HLRModel) (f : List (String × ℝ))
    (delta_days base : ℝ) :
    ((predict m f delta_days base).2).fcounts = m.fcounts := rfl

/-- Predict does not change the observed weight of any name. -/
theorem predict_wview (m : HLRModel) (f : List (String × ℝ))
    (delta_days base : ℝ) (k : String) :
    wview (predict m f delta_days base).2 k = wview m k := by
  simp [predict, halflife, wview, dotProd_getD]

/-- Predict does not touch the hyper-parameter fields. -/
theorem predict_params (m : HLRModel) (f : List (String × ℝ))
    (delta_days base : ℝ) :
    ((predict m f delta_days base).2).omit_h_term = m.omit_h_term ∧
    ((predict m f delta_days base).2).lrate = m.lrate ∧
    ((predict m f delta_days base).2).hlwt = m.hlwt ∧
    ((predict m f delta_days base).2).l2wt = m.l2wt ∧
    ((predict m f delta_days base).2).sigma = m.sigma :=
  ⟨rfl, rfl, rfl, rfl, rfl⟩

/-- Lookup distributes over the rebuild fold of load_weights when the
imported keys are distinct: an imported key reads its imported value, any
other key reads whatever the accumulator held. -/
theorem dlookup_foldl_dset {α : Type} (w : List (String × α))
    (acc : List (String × α)) (hnd : (w.map Prod.fst).Nodup) (k : String) :
    dlookup (w.foldl (fun a kv => dset a kv.1 kv.2) acc) k =
      if k ∈ w.map Prod.fst then dlookup w k else dlookup acc k := by
  induction w generalizing acc with
  | nil => simp [dlookup]
  | cons kv rest ih =>
      obtain ⟨k0, v0⟩ := kv
      obtain ⟨hk0, hrest⟩ := List.nodup_cons.mp hnd
      rw [List.foldl_cons, ih (dset acc k0 v0) hrest]
      by_cases hmem : k ∈ rest.map Prod.fst
      · have hne : ¬ k0 = k := fun h => hk0 (h ▸ hmem)
        simp [hmem, dlookup, hne]
      · rw [dlookup_dset]
        by_cases hk : k = k0
        · subst hk
          simp [hmem, dlookup]
        · have : ¬ k0 = k := fun h => hk h.symm
          simp [hmem, dlookup, hk, this]

/-- A key outside the key list of a dictionary looks up to none. -/
theorem dlookup_eq_none {α : Type} (m : List (String × α)) (k : String)
    (hk : k ∉ m.map Prod.fst) : dlookup m k = none := by
  induction m with
  | nil => rfl
  | cons kv rest ih =>
      obtain ⟨k0, v0⟩ := kv
      have h1 : ¬ k0 = k := fun h => hk (by simp [h])
      have h2 : k ∉ rest.map Prod.fst := fun h => hk (by simp [h])
      simp [dlookup, h1, ih h2]

/-- With distinct keys, a member entry looks up to its own value. -/
theorem dlookup_of_mem {α : Type} (m : List (String × α))
    (kv : String × α) (hnd : (m.map Prod.fst).Nodup) (hmem : kv ∈ m) :
    dlookup m kv.1 = some kv.2 := by
  induction m with
  | nil => cases hmem
  | cons kv0 rest ih =>
      obtain ⟨k0, v0⟩ := kv0
      obtain ⟨hk0, hrest⟩ := List.nodup_cons.mp hnd
      rcases List.mem_cons.mp hmem with h | h
      · subst h; simp [dlookup]
      · have hne : ¬ k0 = kv.1 := by
          intro he
          apply hk0
          rw [he]
          exact List.mem_map.mpr ⟨kv, h, rfl⟩
        simp [dlookup, hne, ih hrest h]

/-- Count component of the spec fold: the initial count plus the number of
occurrences of the name in the feature list. -/
theorem specStep_foldl_count (om : Bool)
    (lrate hlwt l2wt sigma r dlp dlh : ℝ) (f : List (String × ℝ))
    (wc : (String → ℝ) × (String → ℕ)) (k : String) :
    (f.foldl (specStep om lrate hlwt l2wt sigma r dlp dlh) wc).2 k =
      wc.2 k + f.countP (fun kx => decide (kx.1 = k)) := by
  induction f generalizing wc with
  | nil => simp
  | cons kx rest ih =>
      rw [List.foldl_cons, ih]
      by_cases hk : kx.1 = k
      · subst hk
        simp [specStep, List.countP_cons]
        ring
      · simp [specStep, List.countP_cons, hk, Function.update_noteq,
          Ne.symm hk]

/-- A name absent from the feature list is untouched by the spec fold. -/
theorem specStep_foldl_absent (om : Bool)
    (lrate hlwt l2wt sigma r dlp dlh : ℝ) (f : List (String × ℝ))
    (wc : (String → ℝ) × (String → ℕ)) (k : String)
    (hk : k ∉ f.map Prod.fst) :
    (f.foldl (specStep om lrate hlwt l2wt sigma r dlp dlh) wc).1 k =
      wc.1 k ∧
    (f.foldl (specStep om lrate hlwt l2wt sigma r dlp dlh) wc).2 k =
      wc.2 k := by
  induction f generalizing wc with
  | nil => exact ⟨rfl, rfl⟩
  | cons kx rest ih =>
      have h1 : ¬ kx.1 = k := fun h => hk (by simp [h])
      have h2 : k ∉ rest.map Prod.fst := fun h => hk (by simp [h])
      rw [List.foldl_cons]
      obtain ⟨hw, hc⟩ := ih
        (specStep om lrate hlwt l2wt sigma r dlp dlh wc kx) h2
      constructor
      · rw [hw]
        cases om <;>
          simp [specStep, Function.update_noteq (Ne.symm h1)]
      · rw [hc]
        simp [specStep, Function.update_noteq (Ne.symm h1)]

/-- Weight left at a name by one spec step on that name, spelled out. -/
def specNewWeight (om : Bool) (lrate hlwt l2wt sigma r dlp dlh w x : ℝ)
    (c : ℕ) : ℝ :=
  let rate := specRate r lrate c
  let w1 := w - rate * dlp * x
  let w2 := if om then w1 else w1 - rate * hlwt * dlh * x
  w2 - rate * l2wt * w2 / sigma ^ 2

/-- Weight component of the spec fold at a name that occurs exactly once
in the feature list: one spec step applied to the initial values. -/
theorem specStep_foldl_single (om : Bool)
    (lrate hlwt l2wt sigma r dlp dlh : ℝ) (f : List (String × ℝ))
    (wc : (String → ℝ) × (String → ℕ)) (k : String) (x : ℝ)
    (hmem : (k, x) ∈ f)
    (honce : f.countP (fun kx => decide (kx.1 = k)) = 1) :
    (f.foldl (specStep om lrate hlwt l2wt sigma r dlp dlh) wc).1 k =
      specNewWeight om lrate hlwt l2wt sigma r dlp dlh
        (wc.1 k) x (wc.2 k) := by
  induction f generalizing wc with
  | nil => cases hmem
  | cons kx rest ih =>
      by_cases hk : kx.1 = k
      · have hzero : rest.countP (fun p => decide (p.1 = k)) = 0 := by
          have h1 := honce
          rw [List.countP_cons, if_pos (by simp [hk])] at h1
          omega
        have habs : k ∉ rest.map Prod.fst := by
          intro hmem'
          obtain ⟨p, hp, hpk⟩ := List.mem_map.mp hmem'
          have : 0 < rest.countP (fun q => decide (q.1 = k)) := by
            apply List.countP_pos_iff.mpr
            exact ⟨p, hp, by simp [hpk]⟩
          omega
        have hx : kx = (k, x) := by
          rcases List.mem_cons.mp hmem with h | h
          · exact h.symm
          · exfalso
            have : 0 < rest.countP (fun q => decide (q.1 = k)) := by
              apply List.countP_pos_iff.mpr
              exact ⟨(k, x), h, by simp⟩
            omega
        subst hx
        rw [List.foldl_cons]
        obtain ⟨hw, _⟩ := specStep_foldl_absent om lrate hlwt l2wt sigma
          r dlp dlh rest
          (specStep om lrate hlwt l2wt sigma r dlp dlh wc (k, x)) k habs
        rw [hw]
        cases om <;>
          simp [specStep, specNewWeight]
      · have hmem' : (k, x) ∈ rest := by
          rcases List.mem_cons.mp hmem with h | h
          · exact absurd (congrArg Prod.fst h.symm) hk
          · exact h
        have honce' : rest.countP (fun p => decide (p.1 = k)) = 1 := by
          have h1 := honce
          rw [List.countP_cons, if_neg (by simp [hk])] at h1
          omega
        rw [List.foldl_cons, ih
          (specStep om lrate hlwt l2wt sigma r dlp dlh wc kx) hmem' honce']
        cases om <;>
          simp [specStep, Function.update_noteq (Ne.symm hk)]

/-- Unfolding of train_update when the half-life resolution succeeds. -/
theorem train_update_eq (m : HLRModel) (f : List (String × ℝ))
    (d r : ℝ) (aho : Option ℝ) (ah : ℝ)
    (hres : resolve_half_life d r (predict m f d 2.0).1.2 aho = some ah) :
    train_update m f d r aho =
      some (f.foldl
        (updateFeature r
          (2.0 * ((predict m f d 2.0).1.1 - r) * LN2 ^ 2 *
            (predict m f d 2.0).1.1 * (d / (predict m f d 2.0).1.2))
          (2.0 * ((predict m f d 2.0).1.2 - ah) * LN2 *
            (predict m f d 2.0).1.2))
        (predict m f d 2.0).2) := by
  unfold train_update
  simp only []
  rw [hres]

/-- The maps view of a successful train_update: the spec-level fold of
spec steps, started from the views of the model before the call, with the
loss derivatives formed from the prediction before the call. -/
theorem train_update_views (m : HLRModel) (f : List (String × ℝ))
    (d r : ℝ) (aho : Option ℝ) (ah : ℝ) (m' : HLRModel)
    (hres : resolve_half_life d r (predict m f d 2.0).1.2 aho = some ah)
    (hup : train_update m f d r aho = some m') :
    (wview m', cview m') =
      f.foldl
        (specStep m.omit_h_term m.lrate m.hlwt m.l2wt m.sigma r
          (2.0 * ((predict m f d 2.0).1.1 - r) * LN2 ^ 2 *
            (predict m f d 2.0).1.1 * (d / (predict m f d 2.0).1.2))
          (2.0 * ((predict m f d 2.0).1.2 - ah) * LN2 *
            (predict m f d 2.0).1.2))
        (wview m, cview m) := by
  have heq := train_update_eq m f d r aho ah hres
  rw [heq] at hup
  have hm' := Option.some.inj hup
  subst hm'
  obtain ⟨ho, hl, hh, h2, hs⟩ := predict_params m f d 2.0
  have hwv : wview (predict m f d 2.0).2 = wview m :=
    funext fun k => predict_wview m f d 2.0 k
  have hcv : cview (predict m f d 2.0).2 = cview m := by
    funext k
    simp [cview, predict_fcounts]
  rw [views_foldl, ho, hl, hh, h2, hs, hwv, hcv]

/-- With both loss derivatives zero the spec step is exactly the pure L2
shrinkage step. -/
theorem specStep_zero (om : Bool) (lrate hlwt l2wt sigma r : ℝ) :
    specStep om lrate hlwt l2wt sigma r 0 0 =
      shrinkStep lrate l2wt sigma r := by
  funext wc kx
  cases om <;>
    · apply Prod.ext
      · funext k'
        by_cases hk : k' = kx.1
        · subst hk
          simp [specStep, shrinkStep]
          ring
        · simp [specStep, shrinkStep, Function.update_noteq hk]
      · rfl

/-- The recall clip lands in the closed band 0.0001 to 0.9999. -/
theorem pclip_mem (p : ℝ) : 0.0001 ≤ pclip p ∧ pclip p ≤ 0.9999 :=
  ⟨le_min (le_max_right _ _) (by norm_num), min_le_right _ _⟩

/-- The half-life clip lands in the closed band MIN to MAX. -/
theorem hclip_mem (h : ℝ) :
    MIN_HALF_LIFE ≤ hclip h ∧ hclip h ≤ MAX_HALF_LIFE :=
  ⟨le_min (le_max_right _ _)
    (by norm_num [MIN_HALF_LIFE, MAX_HALF_LIFE]), min_le_right _ _⟩

/-- C2: for every weights state, every feature vector, every elapsed time
at least zero and every base, predict returns (totally, the embedding
having no failing branch) a recall probability within the closed band
0.0001 to 0.9999 and a half-life within the closed band 15/1440 to 274
days. -/
theorem c2_predict_bounds (m : HLRModel) (f : List (String × ℝ))
    (d base : ℝ) (hd : 0 ≤ d) :
    (0.0001 ≤ (predict m f d base).1.1 ∧
      (predict m f d base).1.1 ≤ 0.9999) ∧
    (15 / 1440 ≤ (predict m f d base).1.2 ∧
      (predict m f d base).1.2 ≤ 274) := by
  have hmin : MIN_HALF_LIFE = 15 / 1440 := by norm_num [MIN_HALF_LIFE]
  have hmax : MAX_HALF_LIFE = 274 := by norm_num [MAX_HALF_LIFE]
  rw [predict_fst]
  exact ⟨pclip_mem _, hmin ▸ (hclip_mem _).1, hmax ▸ (hclip_mem _).2⟩

/-- Witness for C2 at a concrete input. -/
theorem c2_witness :
    (0 : ℝ) ≤ 1 ∧
    ((0.0001 ≤ (predict initModel [("a", 1.0)] 1 2.0).1.1 ∧
      (predict initModel [("a", 1.0)] 1 2.0).1.1 ≤ 0.9999) ∧
    (15 / 1440 ≤ (predict initModel [("a", 1.0)] 1 2.0).1.2 ∧
      (predict initModel [("a", 1.0)] 1 2.0).1.2 ≤ 274)) :=
  ⟨by norm_num, c2_predict_bounds initModel [("a", 1.0)] 1 2.0 (by norm_num)⟩

/-- C3: the half-life estimation branch of train_update divides by the
base-two logarithm of the actual recall, which is zero at an actual
recall of exactly one; at the well-formed input of elapsed one day,
actual recall one and absent actual half-life, the update fails (Python
raises ZeroDivisionError), embedded as the none result. -/
theorem c3_zero_division :
    train_update initModel [("a", 1.0)] 1 1 none = none := by
  have hres : resolve_half_life 1 1
      (predict initModel [("a", 1.0)] 1 2.0).1.2 none = none := by
    unfold resolve_half_life
    rw [if_pos (by norm_num), if_pos (by simp [Real.logb_one])]
  unfold train_update
  simp only []
  rw [hres]

/-- C4 counterexample: a predict call with a never-seen feature name
grows the weight dictionary, so the exported weight mapping after the
call differs from the one before it. -/
theorem c4_cex :
    get_weights ((predict initModel [("a", 1.0)] 0 2.0).2) ≠
      get_weights initModel := by
  simp [predict, halflife, dotProd, dread, dlookup, get_weights, initModel]

/-- C4 amended: predict leaves the count dictionary untouched and changes
no observed weight, but it may append never-seen names with weight zero
to the weight dictionary, which is visible in the exported mapping. -/
theorem c4_predict_state (m : HLRModel) (f : List (String × ℝ))
    (d base : ℝ) :
    ((predict m f d base).2).fcounts = m.fcounts ∧
    (∀ k, wview (predict m f d base).2 k = wview m k) ∧
    ∃ ext, ((predict m f d base).2).weights = m.weights ++ ext ∧
      ∀ kv ∈ ext, kv.2 = (0 : ℝ) := by
  refine ⟨rfl, fun k => predict_wview m f d base k, ?_⟩
  have h := dotProd_weights_append m.weights f
  simpa [predict, halflife] using h

/-- Model with one trained weight, for the C5 counterexample. -/
def m5 : HLRModel := { initModel with weights := [("a", 1.0)] }

/-- C5 counterexample: with base four, the half-life is four, but the
recall is two to the minus one (a half), not four to the minus one (a
quarter) as the claim requires. -/
theorem c5_cex :
    (predict m5 [("a", 1.0)] 4 4).1.1 ≠
      pclip ((4 : ℝ) ^ (-(4 : ℝ) / (predict m5 [("a", 1.0)] 4 4).1.2)) := by
  have hdp : (dotProd m5.weights [("a", 1.0)]).1 = 1 := by
    simp [dotProd, dread, dlookup, m5, initModel]
    norm_num
  have hh : (predict m5 [("a", 1.0)] 4 4).1.2 = 4 := by
    rw [show (predict m5 [("a", 1.0)] 4 4).1.2 =
      hclip ((4 : ℝ) ^ (dotProd m5.weights [("a", 1.0)]).1) from rfl, hdp]
    rw [Real.rpow_one]
    rw [hclip, max_eq_left (by norm_num [MIN_HALF_LIFE]),
      min_eq_left (by norm_num [MAX_HALF_LIFE])]
  have hp : (predict m5 [("a", 1.0)] 4 4).1.1 = 1 / 2 := by
    rw [show (predict m5 [("a", 1.0)] 4 4).1.1 =
      pclip ((2.0 : ℝ) ^ (-(4 : ℝ) /
        hclip ((4 : ℝ) ^ (dotProd m5.weights [("a", 1.0)]).1))) from rfl]
    rw [show hclip ((4 : ℝ) ^ (dotProd m5.weights [("a", 1.0)]).1) =
      (predict m5 [("a", 1.0)] 4 4).1.2 from rfl, hh]
    have he : (-(4 : ℝ) / 4) = -1 := by norm_num
    rw [he, Real.rpow_neg_one]
    rw [pclip, max_eq_left (by norm_num), min_eq_left (by norm_num)]
    norm_num
  rw [hp, hh]
  have h4 : ((4 : ℝ) ^ (-(4 : ℝ) / 4)) = 1 / 4 := by
    have he : (-(4 : ℝ) / 4) = -1 := by norm_num
    rw [he, Real.rpow_neg_one]
    norm_num
  rw [h4, pclip, max_eq_left (by norm_num), min_eq_left (by norm_num)]
  norm_num

/-- C5 amended: the half-life component of predict is the clipped power
of the given base at the dot product, but the recall component is the
clipped power of the fixed base two at minus elapsed over half-life,
whatever base was passed. -/
theorem c5_predict_base (m : HLRModel) (f : List (String × ℝ))
    (d base : ℝ) :
    (predict m f d base).1.2 = hclip (base ^ (dotProd m.weights f).1) ∧
    (predict m f d base).1.1 =
      pclip ((2.0 : ℝ) ^ (-d / (predict m f d base).1.2)) :=
  ⟨rfl, rfl⟩

/-- C7: exporting the weights and importing the exported mapping leaves
every later predict result unchanged, for any model whose weight
dictionary has distinct keys (an invariant of every reachable state). -/
theorem c7_roundtrip (m : HLRModel)
    (hnd : (m.weights.map Prod.fst).Nodup)
    (f : List (String × ℝ)) (d base : ℝ) :
    (predict (load_weights m (get_weights m)) f d base).1 =
      (predict m f d base).1 := by
  have hw : ∀ k, wview (load_weights m (get_weights m)) k = wview m k := by
    intro k
    rw [wview]
    simp only [load_weights, get_weights]
    rw [dlookup_foldl_dset m.weights [] hnd k]
    by_cases hmem : k ∈ m.weights.map Prod.fst
    · simp [hmem, wview]
    · simp [hmem, dlookup_eq_none m.weights k hmem, wview, dlookup]
  rw [predict_fst, predict_fst]
  have hmap : f.map (fun kx => wview (load_weights m (get_weights m)) kx.1
      * kx.2) = f.map (fun kx => wview m kx.1 * kx.2) :=
    List.map_congr_left fun kx _ => by rw [hw]
  rw [hmap]

/-- Model with two trained weights, for the C7 witness. -/
def m7 : HLRModel :=
  { initModel with weights := [("a", 2.0), ("b", 1.0)] }

/-- Witness for C7 at a concrete model with distinct weight keys. -/
theorem c7_witness :
    (m7.weights.map Prod.fst).Nodup ∧
    (predict (load_weights m7 (get_weights m7)) [("a", 1.0)] 1 2.0).1 =
      (predict m7 [("a", 1.0)] 1 2.0).1 :=
  ⟨by simp [m7, initModel], c7_roundtrip m7 (by simp [m7, initModel])
    [("a", 1.0)] 1 2.0⟩

/-- C8: importing a mapping with distinct keys makes every imported name
read its imported weight, every other name (trained before or not) read
the default weight zero, and leaves the count dictionary untouched. -/
theorem c8_load_weights (m : HLRModel) (w : List (String × ℝ))
    (hnd : (w.map Prod.fst).Nodup) :
    (∀ kv ∈ w, wview (load_weights m w) kv.1 = kv.2) ∧
    (∀ k, k ∉ w.map Prod.fst → wview (load_weights m w) k = 0) ∧
    (load_weights m w).fcounts = m.fcounts := by
  refine ⟨?_, ?_, rfl⟩
  · intro kv hkv
    rw [wview]
    simp only [load_weights]
    rw [dlookup_foldl_dset w [] hnd kv.1]
    have hmem : kv.1 ∈ w.map Prod.fst := List.mem_map.mpr ⟨kv, hkv, rfl⟩
    rw [if_pos hmem, dlookup_of_mem w kv hnd hkv]
    rfl
  · intro k hk
    rw [wview]
    simp only [load_weights]
    rw [dlookup_foldl_dset w [] hnd k, if_neg hk]
    rfl

/-- Witness for C8 at a concrete mapping and a model with a stale count. -/
theorem c8_witness :
    ((([("a", 5.0)] : List (String × ℝ)).map Prod.fst).Nodup) ∧
    ((∀ kv ∈ ([("a", 5.0)] : List (String × ℝ)),
        wview (load_weights m7 [("a", 5.0)]) kv.1 = kv.2) ∧
    (∀ k, k ∉ ([("a", 5.0)] : List (String × ℝ)).map Prod.fst →
        wview (load_weights m7 [("a", 5.0)]) k = 0) ∧
    (load_weights m7 [("a", 5.0)]).fcounts = m7.fcounts) :=
  ⟨by simp, c8_load_weights m7 [("a", 5.0)] (by simp)⟩

/-- C9: predict returns the same recall and half-life pair on any
permutation of the feature vector. -/
theorem c9_predict_perm (m : HLRModel) (f g : List (String × ℝ))
    (d base : ℝ) (hp : List.Perm f g) (hd : 0 ≤ d) :
    (predict m g d base).1 = (predict m f d base).1 := by
  rw [predict_fst, predict_fst]
  have hsum : (g.map (fun kx => wview m kx.1 * kx.2)).sum =
      (f.map (fun kx => wview m kx.1 * kx.2)).sum :=
    List.Perm.sum_eq (List.Perm.map _ hp.symm)
  rw [hsum]

/-- Witness for C9 at a concrete two-element swap. -/
theorem c9_witness :
    List.Perm [(("a" : String), (1.0 : ℝ)), ("b", 2.0)]
      [("b", 2.0), ("a", 1.0)] ∧
    (predict initModel [("b", 2.0), ("a", 1.0)] 1 2.0).1 =
      (predict initModel [("a", 1.0), ("b", 2.0)] 1 2.0).1 :=
  ⟨List.Perm.swap _ _ _,
   c9_predict_perm initModel [("a", 1.0), ("b", 2.0)]
     [("b", 2.0), ("a", 1.0)] 1 2.0 (List.Perm.swap _ _ _) (by norm_num)⟩

/-- The natural logarithm of two is positive. -/
theorem LN2_pos : 0 < LN2 := by
  rw [LN2]
  exact Real.log_pos (by norm_num)

/-- Clipping a unit half-life is the identity. -/
theorem hclip_one : hclip 1 = 1 := by
  rw [hclip, max_eq_left (by norm_num [MIN_HALF_LIFE]),
    min_eq_left (by norm_num [MAX_HALF_LIFE])]

/-- The spec rate at count zero loses the square root factor. -/
theorem specRate_zero (r lrate : ℝ) : specRate r lrate 0 = 1 / (1 + r) * lrate := by
  rw [specRate]
  norm_num

/-- Predicted values over an empty weight dictionary: half-life one and
recall the clipped power of two at minus the elapsed time. -/
theorem predict_val_empty (m : HLRModel) (hm : m.weights = [])
    (f : List (String × ℝ)) (d : ℝ) :
    (predict m f d 2.0).1.2 = 1 ∧
    (predict m f d 2.0).1.1 = pclip ((2.0 : ℝ) ^ (-d)) := by
  have hdp : (dotProd m.weights f).1 = 0 := by
    rw [hm, dotProd_fst]
    have : f.map (fun kx => ((dlookup ([] : List (String × ℝ)) kx.1).getD 0)
        * kx.2) = f.map (fun kx => 0) := by
      apply List.map_congr_left
      intro kx _
      simp [dlookup]
    rw [this]
    induction f with
    | nil => simp
    | cons a l ih => simp [ih]
  have hh : (predict m f d 2.0).1.2 = 1 := by
    rw [show (predict m f d 2.0).1.2 =
      hclip ((2.0 : ℝ) ^ (dotProd m.weights f).1) from rfl, hdp,
      Real.rpow_zero, hclip_one]
  refine ⟨hh, ?_⟩
  rw [show (predict m f d 2.0).1.1 =
    pclip ((2.0 : ℝ) ^ (-d / (predict m f d 2.0).1.2)) from rfl, hh,
    div_one]

/-- C1: for every non-empty feature vector, train_update with a resolved
actual half-life performs, per feature in vector order, exactly the spec
sequence: rate from one over one plus recall times the learning rate over
the square root of one plus the count, the recall gradient step with
derivative two times p minus recall times squared log two times p times
elapsed over h, the half-life gradient step with derivative two times h
minus the actual half-life times log two times h unless omitted, the L2
shrinkage on the result of the two gradient steps, and the count
increment, with p and h the prediction before any update. -/
theorem c1_train_update_sequence (m : HLRModel) (f : List (String × ℝ))
    (d r : ℝ) (aho : Option ℝ) (ah : ℝ) (hf : f ≠ [])
    (hres : resolve_half_life d r (predict m f d 2.0).1.2 aho = some ah) :
    ∃ m', train_update m f d r aho = some m' ∧
      (wview m', cview m') =
        f.foldl
          (specStep m.omit_h_term m.lrate m.hlwt m.l2wt m.sigma r
            (2.0 * ((predict m f d 2.0).1.1 - r) * LN2 ^ 2 *
              (predict m f d 2.0).1.1 * (d / (predict m f d 2.0).1.2))
            (2.0 * ((predict m f d 2.0).1.2 - ah) * LN2 *
              (predict m f d 2.0).1.2))
          (wview m, cview m) := by
  have heq := train_update_eq m f d r aho ah hres
  exact ⟨_, heq, train_update_views m f d r aho ah _ hres heq⟩

/-- Witness for C1 at a concrete input with an explicit half-life. -/
theorem c1_witness :
    (([(("a" : String), (1.0 : ℝ))] ≠ []) ∧
      resolve_half_life 0 0 (predict initModel [("a", 1.0)] 0 2.0).1.2
        (some 1) = some 1) ∧
    (∃ m', train_update initModel [("a", 1.0)] 0 0 (some 1) = some m' ∧
      (wview m', cview m') =
        [(("a" : String), (1.0 : ℝ))].foldl
          (specStep initModel.omit_h_term initModel.lrate initModel.hlwt
            initModel.l2wt initModel.sigma 0
            (2.0 * ((predict initModel [("a", 1.0)] 0 2.0).1.1 - 0) *
              LN2 ^ 2 * (predict initModel [("a", 1.0)] 0 2.0).1.1 *
              (0 / (predict initModel [("a", 1.0)] 0 2.0).1.2))
            (2.0 * ((predict initModel [("a", 1.0)] 0 2.0).1.2 - 1) * LN2 *
              (predict initModel [("a", 1.0)] 0 2.0).1.2))
          (wview initModel, cview initModel)) :=
  ⟨⟨by simp, rfl⟩,
    c1_train_update_sequence initModel [("a", 1.0)] 0 0 (some 1) 1
      (by simp) rfl⟩

/-- C10: with zero elapsed days and an absent actual half-life, both loss
derivatives vanish, so train_update succeeds and degenerates to the pure
L2 shrinkage fold: each touched weight is multiplied by one minus rate
times the L2 weight over sigma squared and each touched count gains
one. -/
theorem c10_zero_elapsed (m : HLRModel) (f : List (String × ℝ)) (r : ℝ)
    (h0 : 0 ≤ r) (h1 : r ≤ 1) :
    ∃ m', train_update m f 0 r none = some m' ∧
      (wview m', cview m') =
        f.foldl (shrinkStep m.lrate m.l2wt m.sigma r)
          (wview m, cview m) := by
  have hres : resolve_half_life 0 r (predict m f 0 2.0).1.2 none =
      some (predict m f 0 2.0).1.2 := by
    unfold resolve_half_life
    exact if_neg (fun hc => lt_irrefl (0 : ℝ) hc.2)
  have heq := train_update_eq m f 0 r none _ hres
  refine ⟨_, heq, ?_⟩
  have hv := train_update_views m f 0 r none _ _ hres heq
  have hdlp : 2.0 * ((predict m f 0 2.0).1.1 - r) * LN2 ^ 2 *
      (predict m f 0 2.0).1.1 * ((0 : ℝ) / (predict m f 0 2.0).1.2) = 0 := by
    rw [zero_div]
    ring
  have hdlh : 2.0 * ((predict m f 0 2.0).1.2 - (predict m f 0 2.0).1.2) *
      LN2 * (predict m f 0 2.0).1.2 = 0 := by ring
  rw [hv, hdlp, hdlh, specStep_zero]

/-- Witness for C10 at a concrete input. -/
theorem c10_witness :
    ((0 : ℝ) ≤ 1 / 2 ∧ (1 / 2 : ℝ) ≤ 1) ∧
    (∃ m', train_update initModel [("a", 1.0)] 0 (1 / 2) none = some m' ∧
      (wview m', cview m') =
        [(("a" : String), (1.0 : ℝ))].foldl
          (shrinkStep initModel.lrate initModel.l2wt initModel.sigma (1 / 2))
          (wview initModel, cview initModel)) :=
  ⟨⟨by norm_num, by norm_num⟩,
    c10_zero_elapsed initModel [("a", 1.0)] (1 / 2) (by norm_num)
      (by norm_num)⟩

/-- Sum of the three per-feature adjustment terms the spec names: the
recall gradient term, the half-life gradient term (zero when omitted) and
the L2 shrinkage computed on the weight the first two leave behind. -/
def adjustSum (om : Bool) (lrate hlwt l2wt sigma r dlp dlh w x : ℝ)
    (c : ℕ) : ℝ :=
  let rate := specRate r lrate c
  let t1 := rate * dlp * x
  let t2 := if om then 0 else rate * hlwt * dlh * x
  let t3 := rate * l2wt * (w - t1 - t2) / sigma ^ 2
  t1 + t2 + t3

/-- The spec-step weight is the old weight minus the adjustment sum. -/
theorem specNewWeight_sub (om : Bool)
    (lrate hlwt l2wt sigma r dlp dlh w x : ℝ) (c : ℕ) :
    specNewWeight om lrate hlwt l2wt sigma r dlp dlh w x c =
      w - adjustSum om lrate hlwt l2wt sigma r dlp dlh w x c := by
  cases om <;> · simp [specNewWeight, adjustSum]; ring

/-- C6 amended: after a successful train_update, each touched name's
count strictly increases, by exactly the number of its occurrences in the
vector (so by one when it occurs once); and a name occurring exactly once
keeps its weight if and only if the sum of the three per-feature
adjustment terms vanishes, in particular whenever all three are zero. -/
theorem c6_train_update_touch (m : HLRModel) (f : List (String × ℝ))
    (d r : ℝ) (aho : Option ℝ) (ah : ℝ) (m' : HLRModel)
    (hres : resolve_half_life d r (predict m f d 2.0).1.2 aho = some ah)
    (hup : train_update m f d r aho = some m') :
    (∀ k, k ∈ f.map Prod.fst →
      cview m' k = cview m k + f.countP (fun kx => decide (kx.1 = k)) ∧
      cview m k < cview m' k) ∧
    (∀ k x, (k, x) ∈ f → f.countP (fun kx => decide (kx.1 = k)) = 1 →
      (wview m' k = wview m k ↔
        adjustSum m.omit_h_term m.lrate m.hlwt m.l2wt m.sigma r
          (2.0 * ((predict m f d 2.0).1.1 - r) * LN2 ^ 2 *
            (predict m f d 2.0).1.1 * (d / (predict m f d 2.0).1.2))
          (2.0 * ((predict m f d 2.0).1.2 - ah) * LN2 *
            (predict m f d 2.0).1.2)
          (wview m k) x (cview m k) = 0)) := by
  have hv := train_update_views m f d r aho ah m' hres hup
  constructor
  · intro k hk
    have h0 := congrFun (congrArg Prod.snd hv) k
    rw [specStep_foldl_count] at h0
    have hc : cview m' k =
        cview m k + f.countP (fun kx => decide (kx.1 = k)) := h0
    refine ⟨hc, ?_⟩
    rw [hc]
    obtain ⟨p, hp, he⟩ := List.mem_map.mp hk
    have hpos : 0 < f.countP (fun kx => decide (kx.1 = k)) :=
      List.countP_pos_iff.mpr ⟨p, hp, by simp [he]⟩
    omega
  · intro k x hmem honce
    have h0 := congrFun (congrArg Prod.fst hv) k
    rw [specStep_foldl_single _ _ _ _ _ _ _ _ f _ k x hmem honce,
      specNewWeight_sub] at h0
    have hw : wview m' k = wview m k -
        adjustSum m.omit_h_term m.lrate m.hlwt m.l2wt m.sigma r
          (2.0 * ((predict m f d 2.0).1.1 - r) * LN2 ^ 2 *
            (predict m f d 2.0).1.1 * (d / (predict m f d 2.0).1.2))
          (2.0 * ((predict m f d 2.0).1.2 - ah) * LN2 *
            (predict m f d 2.0).1.2)
          (wview m k) x (cview m k) := h0
    rw [hw, sub_eq_self]

/-- Witness model for C6: the state train_update leaves at the witness
input. -/
def c6wModel : HLRModel :=
  [(("a" : String), (1.0 : ℝ))].foldl
    (updateFeature 0
      (2.0 * ((predict initModel [("a", 1.0)] 0 2.0).1.1 - 0) * LN2 ^ 2 *
        (predict initModel [("a", 1.0)] 0 2.0).1.1 *
        (0 / (predict initModel [("a", 1.0)] 0 2.0).1.2))
      (2.0 * ((predict initModel [("a", 1.0)] 0 2.0).1.2 - 1) * LN2 *
        (predict initModel [("a", 1.0)] 0 2.0).1.2))
    (predict initModel [("a", 1.0)] 0 2.0).2

/-- Witness for C6 at a concrete input with an explicit half-life. -/
theorem c6_witness :
    (resolve_half_life 0 0 (predict initModel [("a", 1.0)] 0 2.0).1.2
        (some 1) = some 1 ∧
      train_update initModel [("a", 1.0)] 0 0 (some 1) = some c6wModel) ∧
    ((∀ k, k ∈ [(("a" : String), (1.0 : ℝ))].map Prod.fst →
      cview c6wModel k = cview initModel k +
        [(("a" : String), (1.0 : ℝ))].countP (fun kx => decide (kx.1 = k)) ∧
      cview initModel k < cview c6wModel k) ∧
    (∀ k x, (k, x) ∈ [(("a" : String), (1.0 : ℝ))] →
      [(("a" : String), (1.0 : ℝ))].countP (fun kx => decide (kx.1 = k)) = 1 →
      (wview c6wModel k = wview initModel k ↔
        adjustSum initModel.omit_h_term initModel.lrate initModel.hlwt
          initModel.l2wt initModel.sigma 0
          (2.0 * ((predict initModel [("a", 1.0)] 0 2.0).1.1 - 0) * LN2 ^ 2 *
            (predict initModel [("a", 1.0)] 0 2.0).1.1 *
            (0 / (predict initModel [("a", 1.0)] 0 2.0).1.2))
          (2.0 * ((predict initModel [("a", 1.0)] 0 2.0).1.2 - 1) * LN2 *
            (predict initModel [("a", 1.0)] 0 2.0).1.2)
          (wview initModel k) x (cview initModel k) = 0))) :=
  ⟨⟨rfl, train_update_eq initModel [("a", 1.0)] 0 0 (some 1) 1 rfl⟩,
    c6_train_update_touch initModel [("a", 1.0)] 0 0 (some 1) 1 c6wModel
      rfl (train_update_eq initModel [("a", 1.0)] 0 0 (some 1) 1 rfl)⟩

/-- Hyper-parameters for the second half of the C6 counterexample: unit
learning rate and unit L2 weight. -/
def cm6 : HLRModel :=
  { weights := [], fcounts := [], omit_h_term := false,
    lrate := 1.0, hlwt := 0.01, l2wt := 1.0, sigma := 1.0 }

/-- C6 counterexample: first, a name occurring twice in the feature
vector has its count increased by two, not by exactly one; second, at
unit learning rate and unit L2 weight a single-occurrence name keeps
weight zero although the recall-gradient adjustment term is nonzero, so
the weight does not differ even though not all three terms are zero. -/
theorem c6_cex :
    (∃ m', train_update initModel [("a", 1.0), ("a", 1.0)] 0 0 none =
        some m' ∧
      cview m' "a" = 2 ∧ cview initModel "a" = 0) ∧
    (∃ m', train_update cm6 [("a", 1.0)] 1 0 (some 1) = some m' ∧
      wview m' "a" = wview cm6 "a" ∧
      specRate 0 cm6.lrate (cview cm6 "a") *
        (2.0 * ((predict cm6 [("a", 1.0)] 1 2.0).1.1 - 0) * LN2 ^ 2 *
          (predict cm6 [("a", 1.0)] 1 2.0).1.1 *
          (1 / (predict cm6 [("a", 1.0)] 1 2.0).1.2)) * 1.0 ≠ 0) := by
  constructor
  · have hres : resolve_half_life 0 0
        (predict initModel [("a", 1.0), ("a", 1.0)] 0 2.0).1.2 none =
        some (predict initModel [("a", 1.0), ("a", 1.0)] 0 2.0).1.2 := by
      unfold resolve_half_life
      exact if_neg (fun hc => lt_irrefl (0 : ℝ) hc.2)
    have heq := train_update_eq initModel [("a", 1.0), ("a", 1.0)] 0 0
      none _ hres
    refine ⟨_, heq, ?_, rfl⟩
    have hv := train_update_views initModel [("a", 1.0), ("a", 1.0)] 0 0
      none _ _ hres heq
    have h0 := congrFun (congrArg Prod.snd hv) "a"
    rw [specStep_foldl_count] at h0
    refine Eq.trans h0 ?_
    simp [cview, initModel, dlookup, List.countP_cons]
  · have hp2 := predict_val_empty cm6 rfl [("a", 1.0)] 1
    have hres : resolve_half_life 1 0
        (predict cm6 [("a", 1.0)] 1 2.0).1.2 (some 1) = some 1 := rfl
    have heq := train_update_eq cm6 [("a", 1.0)] 1 0 (some 1) 1 hres
    refine ⟨_, heq, ?_, ?_⟩
    · have hv := train_update_views cm6 [("a", 1.0)] 1 0 (some 1) 1 _
        hres heq
      have h0 := congrFun (congrArg Prod.fst hv) "a"
      rw [specStep_foldl_single _ _ _ _ _ _ _ _ _ _ "a" 1.0 (by simp)
        (by simp), specNewWeight_sub] at h0
      refine Eq.trans h0 ?_
      show wview cm6 "a" -
          adjustSum cm6.omit_h_term cm6.lrate cm6.hlwt cm6.l2wt cm6.sigma 0
            (2.0 * ((predict cm6 [("a", 1.0)] 1 2.0).1.1 - 0) * LN2 ^ 2 *
              (predict cm6 [("a", 1.0)] 1 2.0).1.1 *
              (1 / (predict cm6 [("a", 1.0)] 1 2.0).1.2))
            (2.0 * ((predict cm6 [("a", 1.0)] 1 2.0).1.2 - 1) * LN2 *
              (predict cm6 [("a", 1.0)] 1 2.0).1.2)
            (wview cm6 "a") 1.0 (cview cm6 "a") = wview cm6 "a"
      rw [sub_eq_self]
      rw [show cview cm6 "a" = 0 from rfl, show wview cm6 "a" = 0 from rfl]
      simp only [adjustSum, specRate_zero, cm6]
      norm_num
    · rw [hp2.1, show (predict cm6 [("a", 1.0)] 1 2.0).1.1 = 1 / 2 from by
        rw [hp2.2, show ((2.0 : ℝ) ^ (-(1 : ℝ))) = 1 / 2 from by
          rw [Real.rpow_neg_one]; norm_num]
        rw [pclip, max_eq_left (by norm_num), min_eq_left (by norm_num)]]
      rw [show cview cm6 "a" = 0 from rfl, show cm6.lrate = 1.0 from rfl,
        specRate_zero]
      have hpos : (0 : ℝ) < LN2 ^ 2 / 2 :=
        div_pos (pow_pos LN2_pos 2) (by norm_num)
      have hval : 1 / (1 + (0 : ℝ)) * 1.0 *
          (2.0 * ((1 : ℝ) / 2 - 0) * LN2 ^ 2 * (1 / 2) * (1 / 1)) * 1.0 =
          LN2 ^ 2 / 2 := by ring
      rw [hval]
      exact ne_of_gt hpos

end HLRSidecar
